import Mathlib

/-!
# Verification of the Variant Manager panel logic

A shallow embedding, in Lean 4, of the state-bearing logic of the
`python_panels` package of the variant-manager repository:

* `state.py` — the `VariantManagerState` singleton (Qt signals, property
  setters, the `__new__`/`__init__` singleton protocol);
* `thumbnail/thumbnail_generator.py` — the FIFO thumbnail generation
  queue driven by a single-shot `QTimer`;
* `thumbnail/thumbnail_manager.py` — the facade that forwards
  `request_thumbnail` to `queue_item`;
* `inspector_tab.py` — the path-splitting tree builder `_rebuild_list`
  and the tree filter `_apply_filter`;
* `comparison_tab.py` — the per-variant comparison panel rebuild.

Python objects are modelled as Lean structures, mutation as explicit
state passing, Qt signal emission as an output list of signal values,
and host-API calls (viewport capture, pixmap loading) as oracle
parameters.  Opaque host handles (`hou.LopNode`, `Usd.Stage`) are
modelled as natural-number handles.
-/

namespace VariantManager

/-! ## `state.py` — the `VariantManagerState` singleton -/

/-- A Qt signal emission recorded by the state object
(`lop_node_changed`, `stage_changed`, `prim_path_changed`,
`variant_set_changed` in `state.py`).  Object-valued signals carry
`Option Nat` handles, string-valued ones carry `String`. -/
inductive StateSignal where
  | lopNodeChanged (value : Option Nat)
  | stageChanged (value : Option Nat)
  | primPathChanged (value : String)
  | variantSetChanged (value : String)
deriving DecidableEq, Repr

/-- The instance fields of a `VariantManagerState` object:
`_initialized`, `_lop_node`, `_stage`, `_prim_path`, `_variant_set`.
A freshly `__new__`-allocated object has `initialized = false` and, in
the model, default field values (reading them before `__init__` would
be an `AttributeError` in Python; no code path does so). -/
structure StateObj where
  initialized : Bool
  lop_node : Option Nat
  stage : Option Nat
  prim_path : String
  variant_set : String
deriving DecidableEq, Repr

/-- A `StateObj` as `__new__` leaves it before `__init__` ever ran. -/
def blankStateObj : StateObj :=
  { initialized := false, lop_node := none, stage := none
    prim_path := "", variant_set := "" }

/-- `VariantManagerState.__init__`: returns unchanged if
`_initialized` is already set, otherwise initializes all state
variables and sets `_initialized`. -/
def stateInit (s : StateObj) : StateObj :=
  if s.initialized then s
  else
    { initialized := true, lop_node := none, stage := none
      prim_path := "", variant_set := "" }

/-- Calling `VariantManagerState()`: `__new__` consults the class-level
`_instance` (the argument), allocating a fresh object only when it is
`none`, then `__init__` runs on the returned object.  The result is the
returned instance paired with the new class-level `_instance`. -/
def stateConstruct (instVar : Option StateObj) : StateObj × Option StateObj :=
  let obj := match instVar with
    | none => blankStateObj
    | some o => o
  let obj := stateInit obj
  (obj, some obj)

/-- `get_state()` just calls `VariantManagerState()`. -/
def get_state (instVar : Option StateObj) : StateObj × Option StateObj :=
  stateConstruct instVar

/-- The `lop_node` property setter: assigns the backing field and emits
`lop_node_changed` only when the value changed. -/
def setLopNode (s : StateObj) (value : Option Nat) : StateObj × List StateSignal :=
  if s.lop_node ≠ value then
    ({ s with lop_node := value }, [StateSignal.lopNodeChanged value])
  else (s, [])

/-- The `stage` property setter as written in `state.py`: it emits
`stage_changed` with the new value but never assigns `_stage`. -/
def setStage (s : StateObj) (value : Option Nat) : StateObj × List StateSignal :=
  (s, [StateSignal.stageChanged value])

/-- The `prim_path` property setter as written in `state.py`: it emits
`prim_path_changed` with the new value but never assigns `_prim_path`. -/
def setPrimPath (s : StateObj) (value : String) : StateObj × List StateSignal :=
  (s, [StateSignal.primPathChanged value])

/-- The `variant_set` property setter as written in `state.py`: it
emits `variant_set_changed` with the new value but never assigns
`_variant_set`. -/
def setVariantSet (s : StateObj) (value : String) : StateObj × List StateSignal :=
  (s, [StateSignal.variantSetChanged value])

/-- The `stage` property getter: returns the backing field `_stage`. -/
def getStage (s : StateObj) : Option Nat := s.stage

/-- The `prim_path` property getter: returns `_prim_path`. -/
def getPrimPath (s : StateObj) : String := s.prim_path

/-- The `variant_set` property getter: returns `_variant_set`. -/
def getVariantSet (s : StateObj) : String := s.variant_set

/-- `VariantManagerState.clear`: assigns through the four property
setters in order (`lop_node = None`, `stage = None`, `prim_path = ""`,
`variant_set = ""`), accumulating the emitted signals. -/
def stateClear (s : StateObj) : StateObj × List StateSignal :=
  let (s1, e1) := setLopNode s none
  let (s2, e2) := setStage s1 none
  let (s3, e3) := setPrimPath s2 ""
  let (s4, e4) := setVariantSet s3 ""
  (s4, e1 ++ e2 ++ e3 ++ e4)

/-! ## `thumbnail/thumbnail_generator.py` — the generation queue -/

/-- A queued generation request: the tuple
`(index, prim_path, variant_set_name, variant_value, cache_key)`
appended to `self._queue` by `queue_item`. -/
structure Request where
  index : Nat
  prim_path : String
  variant_set_name : String
  variant_value : String
  cache_key : String
deriving DecidableEq, Repr

/-- A signal emitted by `ThumbnailGenerator`
(`thumbnail_generated`, `generation_error`, `queue_completed`).
Pixmaps are opaque handles modelled as `Nat`. -/
inductive GenSignal where
  | thumbnailGenerated (index : Nat) (pixmap : Nat) (cache_key : String)
  | generationError (index : Nat) (message : String)
  | queueCompleted
deriving DecidableEq, Repr

/-- The mutable fields of a `ThumbnailGenerator`: `_queue`, `_is_busy`,
and whether the single-shot `_timer` is currently running. -/
structure GenState where
  queue : List Request
  is_busy : Bool
  timerActive : Bool
deriving DecidableEq, Repr

/-- The generator as `__init__` leaves it: empty queue, not busy,
timer not started. -/
def initGenState : GenState :=
  { queue := [], is_busy := false, timerActive := false }

/-- `ThumbnailGenerator.process_queue`: starts the timer if not busy
and the queue is non-empty. -/
def processQueue (s : GenState) : GenState :=
  if ¬ s.is_busy ∧ s.queue ≠ [] then { s with timerActive := true } else s

/-- `ThumbnailGenerator.queue_item`: returns unchanged if some queued
request already has this `cache_key`; otherwise appends the request at
the tail and, when not busy, calls `process_queue`. -/
def queueItem (s : GenState) (index : Nat)
    (prim_path variant_set_name variant_value cache_key : String) : GenState :=
  let request : Request :=
    ⟨index, prim_path, variant_set_name, variant_value, cache_key⟩
  if s.queue.any (fun q => q.cache_key = cache_key) then s
  else
    let s := { s with queue := s.queue ++ [request] }
    if ¬ s.is_busy then processQueue s else s

/-- The outcome of `viewport_service.capture` followed by
`QtGui.QPixmap(temp_file)`, abstracted as an oracle: a successful
capture yields a pixmap handle together with whether the loaded pixmap
`isNull`; a `CaptureException` or any other exception carries its
message. -/
inductive CaptureOutcome where
  | ok (pixmap : Nat) (pixmapNull : Bool)
  | captureError (message : String)
  | otherError (message : String)
deriving DecidableEq, Repr

/-- The signal emitted by the body of `_generate_next` for a popped
request, by capture outcome: `thumbnail_generated` on success,
`generation_error` on a `CaptureException`, on any other exception, or
on a null pixmap. -/
def finishSigs (r : Request) (outcome : CaptureOutcome) : List GenSignal :=
  match outcome with
  | CaptureOutcome.ok pm false =>
      [GenSignal.thumbnailGenerated r.index pm r.cache_key]
  | CaptureOutcome.ok _ true =>
      [GenSignal.generationError r.index
        "Unexpected error: Failed to load pixmap from captured file"]
  | CaptureOutcome.captureError m => [GenSignal.generationError r.index m]
  | CaptureOutcome.otherError m =>
      [GenSignal.generationError r.index ("Unexpected error: " ++ m)]

/-- `ThumbnailGenerator._generate_next`: on an empty queue clears
`_is_busy` and emits `queue_completed`; otherwise pops the head of the
queue (`self._queue.pop(0)`), captures it (emitting the per-outcome
signal), then in the `finally` block clears `_is_busy` and restarts
the timer when the queue is still non-empty, emitting
`queue_completed` otherwise. -/
def generateNext (cap : Request → CaptureOutcome) (s : GenState) :
    GenState × List GenSignal :=
  match s.queue with
  | [] => ({ s with is_busy := false }, [GenSignal.queueCompleted])
  | r :: rest =>
    if rest ≠ [] then
      ({ s with queue := rest, is_busy := false, timerActive := true },
       finishSigs r (cap r))
    else
      ({ s with queue := rest, is_busy := false },
       finishSigs r (cap r) ++ [GenSignal.queueCompleted])

/-- `ThumbnailGenerator.cancel_all`: clears the queue, stops the timer,
clears `_is_busy`. -/
def cancelAll (_s : GenState) : GenState :=
  { queue := [], is_busy := false, timerActive := false }

/-- `ThumbnailGenerator.is_busy`. -/
def isBusy (s : GenState) : Bool := s.is_busy

/-- `ThumbnailGenerator.queue_length`. -/
def queueLength (s : GenState) : Nat := s.queue.length

/-! ## `thumbnail/thumbnail_manager.py` — the facade -/

/-- The parameter names of `ThumbnailGenerator.queue_item` (after
`self`); the method has no `**kwargs`. -/
def queueItemParams : List String :=
  ["index", "prim_path", "variant_set_name", "variant_value", "cache_key"]

/-- A Python exception raised at call time. -/
inductive PyError where
  | typeError (message : String)
deriving DecidableEq, Repr

/-- The mutable fields of a `ThumbnailManager`: its generator and the
thumbnail cache (`cache_key` to pixmap handle). -/
structure MgrState where
  generator : GenState
  cache : List (String × Nat)
deriving DecidableEq, Repr

/-- Python call semantics for keyword arguments: a call is accepted
only when every keyword argument names a declared parameter. -/
def pyKwargsAccepted (params kwargs : List String) : Bool :=
  kwargs.all (fun kw => params.contains kw)

/-- `ThumbnailManager.request_thumbnail`: builds the cache key
`"{prim_path}|{variant_set_name}|{variant_value}"` and calls
`queue_item` passing the extra keyword argument `skip_duplicate_check`;
since `queue_item` declares no such parameter, Python raises
`TypeError` before the callee body runs, leaving the manager state
unchanged. The result is the manager state after the call paired with
the raised exception, if any. -/
def requestThumbnail (m : MgrState) (index : Nat)
    (prim_path variant_set_name variant_value : String)
    (_force_regenerate : Bool) : MgrState × Option PyError :=
  let cache_key := prim_path ++ "|" ++ variant_set_name ++ "|" ++ variant_value
  if pyKwargsAccepted queueItemParams ["skip_duplicate_check"] then
    let gen := queueItem m.generator index prim_path variant_set_name
      variant_value cache_key
    ({ m with generator := gen }, none)
  else
    (m, some (PyError.typeError
      "queue_item() got an unexpected keyword argument skip_duplicate_check"))

/-- `ThumbnailManager.cancel_pending`: calls the generator's
`cancel_all`. -/
def cancelPending (m : MgrState) : MgrState :=
  { m with generator := cancelAll m.generator }

/-! ## `comparison_tab.py` — per-variant comparison panels -/

/-- A USD prim as seen by the comparison tab: validity, its path, and
its variant sets (set name paired with the variant names the stage
reports, in order). -/
structure UsdPrim where
  valid : Bool
  path : String
  variantSets : List (String × List String)
deriving DecidableEq, Repr

/-- The switch context stored on a panel's switch button by
`ComparisonPanelWidget.set_variant_context`. -/
structure PanelCtx where
  prim_path : String
  variant_set : String
  variant_choice : String
deriving DecidableEq, Repr

/-- A `ComparisonPanelWidget`: the variant name shown in its label,
whether it is in the loading state, and its switch context (unset
until `set_variant_context` is called). -/
structure Panel where
  variant_name : String
  loading : Bool
  ctx : Option PanelCtx
deriving DecidableEq, Repr

/-- The fields of `ComparisonTab` relevant to panel rebuilding. -/
structure CompState where
  current_prim : Option UsdPrim
  current_variant_set : String
  panels : List Panel
  create_thumbnails_enabled : Bool
  has_thumbnail_manager : Bool
deriving DecidableEq, Repr

/-- `prim.GetVariantSets().GetVariantSet(name)`, yielding the variant
names of the set when the prim has it. -/
def primGetVariantSet (pr : UsdPrim) (name : String) : Option (List String) :=
  pr.variantSets.lookup name

/-- `ComparisonTab._clear_panels`: removes all panels and disables the
create-thumbnails button. -/
def clearPanels (s : CompState) : CompState :=
  { s with panels := [], create_thumbnails_enabled := false }

/-- One iteration of the panel-creation loop in
`ComparisonTab._rebuild_panels`: a fresh `ComparisonPanelWidget` in
loading state, with the switch context set when both the prim path and
the current variant set name are non-empty. -/
def mkPanel (current_variant_set prim_path variant_name : String) : Panel :=
  let p : Panel := { variant_name := variant_name, loading := true, ctx := none }
  if prim_path ≠ "" ∧ current_variant_set ≠ "" then
    { p with ctx := some ⟨prim_path, current_variant_set, variant_name⟩ }
  else p

/-- `ComparisonTab._rebuild_panels`: clears existing panels, then
creates one panel per variant name in order, and enables the
create-thumbnails button when panels exist and a thumbnail manager is
present. -/
def rebuildPanels (s : CompState) (variant_names : List String) : CompState :=
  let s := clearPanels s
  let prim_path := match s.current_prim with
    | some pr => pr.path
    | none => ""
  let panels := variant_names.map (mkPanel s.current_variant_set prim_path)
  { s with panels := panels,
           create_thumbnails_enabled :=
             decide (panels.length > 0) && s.has_thumbnail_manager }

/-- Python truthiness of `self._current_prim`: `None` is falsy and a
`Usd.Prim` is truthy exactly when `IsValid()` holds, so
`not self._current_prim or not self._current_prim.IsValid()` is the
negation of this predicate. -/
def primTruthy : Option UsdPrim → Bool
  | none => false
  | some pr => pr.valid

/-- `ComparisonTab._on_variant_set_changed`: clears the panels when the
placeholder entry is selected or no valid prim is current; otherwise
stores the selected set name, looks the set up on the prim, and
rebuilds one panel per variant name (clearing when the lookup fails). -/
def onVariantSetChanged (s : CompState) (variant_set_name : String) : CompState :=
  if variant_set_name = "(No variant sets)" ∨ primTruthy s.current_prim = false then
    clearPanels s
  else
    let s := { s with current_variant_set := variant_set_name }
    match s.current_prim with
    | some pr =>
      match primGetVariantSet pr variant_set_name with
      | some variant_names => rebuildPanels s variant_names
      | none => clearPanels s
    | none => clearPanels s

/-! ## `inspector_tab.py` — variant prim data and the tree filter -/

/-- One entry of `InspectorTab._variant_prims`: the prim path and the
variant set names found on the prim (`_refresh_from_stage`).  The
`"prim"` reference kept alongside is an opaque host handle and plays
no role in tree building or filtering. -/
structure PrimData where
  path : String
  variant_sets : List String
deriving DecidableEq, Repr

/-- A `QTreeWidgetItem` of the variant tree as the filter sees it: its
`UserRole` data (the prim data, or `None` on intermediate nodes), its
displayed text, and its hidden and expanded flags. -/
inductive FTree where
  | node (data : Option PrimData) (text : String) (hidden : Bool)
      (expanded : Bool) (children : List FTree)

/-- Python `str.lower()` applied character-wise. -/
def lowerStr (s : String) : List Char := s.data.map Char.toLower

/-- The per-item match test of `filter_item`: for an item with prim
data, the (lowered) filter text occurs in the lowered path or in the
lowered space-joined variant set names; for an intermediate item, in
its lowered displayed text.  Python `in` on strings is contiguous
substring containment. -/
def itemMatches (text : List Char) (data : Option PrimData)
    (itemText : String) : Bool :=
  match data with
  | some pd =>
      decide (text <:+: lowerStr pd.path) ||
      decide (text <:+: lowerStr (String.intercalate " " pd.variant_sets))
  | none => decide (text <:+: lowerStr itemText)

mutual

/-- `filter_item` inside `InspectorTab._apply_filter`: recursively
filters the children, computes the item match and child match, sets
`hidden` to the negation of `should_show`, expands the item when a
child matched and the filter is non-empty, and reports whether the
item or any descendant matched. -/
def filterItem (text : List Char) (t : FTree) : FTree × Bool :=
  match t with
  | FTree.node data txt _hidden expanded children =>
    let results := filterChildren text children
    let childMatches := results.any Prod.snd
    let im := itemMatches text data txt
    let shouldShow := text.isEmpty || im || childMatches
    let expanded := if childMatches && !text.isEmpty then true else expanded
    (FTree.node data txt (!shouldShow) expanded (results.map Prod.fst),
     im || childMatches)

/-- The recursion of `filter_item` over a child list. -/
def filterChildren (text : List Char) (l : List FTree) : List (FTree × Bool) :=
  match l with
  | [] => []
  | c :: cs => filterItem text c :: filterChildren text cs

end

/-- `InspectorTab._apply_filter`: lowers the filter text once and runs
`filter_item` on every top-level item. -/
def applyFilter (text : String) (roots : List FTree) : List FTree :=
  (filterChildren (lowerStr text) roots).map Prod.fst

mutual

/-- Whether the item or any of its descendants matches the filter. -/
def subtreeMatches (text : List Char) (t : FTree) : Bool :=
  match t with
  | FTree.node data txt _ _ children =>
    itemMatches text data txt || anySubtreeMatches text children

/-- Whether any tree in the list has a matching item. -/
def anySubtreeMatches (text : List Char) (l : List FTree) : Bool :=
  match l with
  | [] => false
  | c :: cs => subtreeMatches text c || anySubtreeMatches text cs

end

mutual

/-- The claimed visibility condition, at every node of a tree: the
item is visible (not hidden) exactly when the filter text is empty,
the item itself matches, or some descendant matches. -/
def VisOk (text : List Char) (t : FTree) : Prop :=
  match t with
  | FTree.node data txt hidden _ children =>
    (hidden = false ↔
      (text.isEmpty || itemMatches text data txt ||
        anySubtreeMatches text children) = true) ∧
    VisOkList text children

/-- `VisOk` at every tree of a list. -/
def VisOkList (text : List Char) (l : List FTree) : Prop :=
  match l with
  | [] => True
  | c :: cs => VisOk text c ∧ VisOkList text cs

end

/-! ## `inspector_tab.py` — the tree builder `_rebuild_list` -/

/-- Python `path.split("/")` at the character level: splits the
character list at every slash, keeping empty pieces (equivalently,
`String.splitOn "/"` for the one-character separator, which is defined
by well-founded recursion on byte positions and therefore unsuited to
kernel evaluation). -/
def splitSlash : List Char → List (List Char)
  | [] => [[]]
  | c :: cs =>
    if c = '/' then [] :: splitSlash cs
    else
      match splitSlash cs with
      | [] => [[c]]
      | p :: ps => (c :: p) :: ps

/-- `[p for p in path.split("/") if p]` in `_rebuild_list`. -/
def pathParts (path : String) : List String :=
  ((splitSlash path.data).map String.mk).filter (fun s => s ≠ "")

/-- A `QTreeWidgetItem` as `_rebuild_list` creates it: displayed text,
tooltip, the `UserRole` data, the `UserRole + 1` variant marker, the
grey foreground of intermediate nodes, and the key of the parent item
it was attached to (`none` for top-level items). -/
structure TreeItem where
  text : String
  tooltip : String
  userData : Option PrimData
  isVariantPrim : Bool
  foregroundGrey : Bool
  parent : Option String
deriving DecidableEq, Repr

/-- Lookup in `_path_to_item`, modelled as an association list in
insertion order (entries are only ever added, with fresh keys). -/
def findItem : List (String × TreeItem) → String → Option TreeItem
  | [], _ => none
  | (k, it) :: m, c => if k = c then some it else findItem m c

/-- The keys of `_path_to_item`. -/
def itemKeys (m : List (String × TreeItem)) : List String := m.map Prod.fst

/-- The item created for the final path component: text
`f"{part}  ({count})"`, tooltip with path and variant sets, the prim
data at `UserRole`, the variant marker set. -/
def mkVariantItem (pd : PrimData) (part : String) (parent : Option String) :
    TreeItem :=
  { text := part ++ "  (" ++ toString pd.variant_sets.length ++ ")"
    tooltip := "Path: " ++ pd.path ++ "\nVariant Sets: "
      ++ String.intercalate ", " pd.variant_sets
    userData := some pd
    isVariantPrim := true
    foregroundGrey := false
    parent := parent }

/-- The item created for an intermediate path component: plain text,
no `UserRole` data, greyed out. -/
def mkIntermediateItem (part cur : String) (parent : Option String) : TreeItem :=
  { text := part
    tooltip := "Path: " ++ cur
    userData := none
    isVariantPrim := false
    foregroundGrey := true
    parent := parent }

/-- The inner loop of `_rebuild_list` over the path components of one
prim: accumulates `current_path`, reuses an existing item as the new
parent when the path is already in `_path_to_item`, and otherwise
creates the item (variant item on the last component, intermediate
item before) and records it. -/
def addPrimGo (pd : PrimData) : List (String × TreeItem) → Option String →
    String → List String → List (String × TreeItem)
  | m, _, _, [] => m
  | m, parent, acc, part :: rest =>
    let cur := acc ++ "/" ++ part
    match findItem m cur with
    | some _ => addPrimGo pd m (some cur) cur rest
    | none =>
      let item := if rest.isEmpty then mkVariantItem pd part parent
        else mkIntermediateItem part cur parent
      addPrimGo pd (m ++ [(cur, item)]) (some cur) cur rest

/-- One iteration of the outer loop of `_rebuild_list`: skip prims
whose path has no components, otherwise run the component loop
starting from the tree root. -/
def addPrim (m : List (String × TreeItem)) (pd : PrimData) :
    List (String × TreeItem) :=
  let parts := pathParts pd.path
  if parts.isEmpty then m else addPrimGo pd m none "" parts

/-- `InspectorTab._rebuild_list`: clears `_path_to_item`, sorts the
variant prims by path, and runs the component loop for each. -/
def rebuildList (prims : List PrimData) : List (String × TreeItem) :=
  (prims.mergeSort (fun a b => a.path ≤ b.path)).foldl addPrim []

/-- The accumulation `current_path += "/" + part` over a component
list. -/
def accPath (acc : String) (l : List String) : String :=
  l.foldl (fun a p => a ++ "/" ++ p) acc

/-- All values taken by `current_path` while looping over the given
components from a given accumulator. -/
def chainFrom (acc : String) : List String → List String
  | [] => []
  | p :: ps => (acc ++ "/" ++ p) :: chainFrom (acc ++ "/" ++ p) ps

/-- All path prefixes of a component list, from the tree root. -/
def chain (l : List String) : List String := chainFrom "" l

/-- No component contains a slash (true of the pieces of any
slash-split). -/
def SlashFree (l : List String) : Prop := ∀ s ∈ l, ('/' : Char) ∉ s.data

/-- A canonical non-root prim path, as `str(prim.GetPath())` yields
for any prim a USD stage traversal reports: non-empty, slash-free
components, and the path is exactly the slash-joined components. -/
def GoodPath (path : String) : Prop :=
  pathParts path ≠ [] ∧ SlashFree (pathParts path) ∧
  path = accPath "" (pathParts path)

/-- The character-level image of `accPath`: a leading slash before
each piece. -/
def tailJoin : List (List Char) → List Char
  | [] => []
  | p :: r => '/' :: (p ++ tailJoin r)

/-- Structural invariant of `_path_to_item`: every key is a non-empty
slash-joined component chain, and the item stored under it was
attached to the item of the chain one component shorter (top-level
when there is none). -/
def KeyShape (m : List (String × TreeItem)) : Prop :=
  ∀ k it, findItem m k = some it →
    ∃ l, l ≠ [] ∧ SlashFree l ∧ k = accPath "" l ∧
      it.parent = (if l.length = 1 then none else some (accPath "" l.dropLast))

/-- The full invariant of `_path_to_item` after the prims in `done`
have been processed: keys are unique; every key is a well-shaped chain
with the right parent; the keys are exactly the path prefixes of the
processed prims; every processed prim's full path carries its data and
the variant marker; and data appears nowhere else. -/
def Inv (done : List PrimData) (m : List (String × TreeItem)) : Prop :=
  (itemKeys m).Nodup ∧ KeyShape m ∧
  (∀ k, (findItem m k).isSome = true ↔
      ∃ p ∈ done, k ∈ chain (pathParts p.path)) ∧
  (∀ p ∈ done, ∃ it, findItem m p.path = some it ∧ it.userData = some p ∧
      it.isVariantPrim = true) ∧
  (∀ k it, findItem m k = some it → it.userData ≠ none →
      ∃ p ∈ done, p.path = k ∧ it.userData = some p ∧ it.isVariantPrim = true)

/-- A sample variant list with a nested prefix relationship. -/
def demoPrims : List PrimData :=
  [⟨"/Kitchen/assets/Ball", ["modelVariant"]⟩, ⟨"/Kitchen", ["lightVariant"]⟩]

instance (l : List String) : Decidable (SlashFree l) := by
  unfold SlashFree
  infer_instance

instance (p : String) : Decidable (GoodPath p) := by
  unfold GoodPath
  infer_instance

/-! ## The generator as an event machine

`_generate_next` is connected solely to the single-shot timer's
`timeout` signal.  To speak about what holds *while* an item is being
generated, the synchronous body of `_generate_next` is split into two
machine steps: the timeout entering the capture section, and the
capture finishing (the `finally` block).  All other entry points into
the generator (`queue_item`, `process_queue`, `cancel_all`) run on the
same thread and therefore only between generations. -/

/-- The generator's fields plus the instruction-pointer information:
`generating = some r` exactly while `r` is inside the capture section
of `_generate_next`. -/
structure MachineState where
  gen : GenState
  generating : Option Request
deriving DecidableEq, Repr

/-- The machine state right after `ThumbnailGenerator.__init__`. -/
def initMachine : MachineState := ⟨initGenState, none⟩

/-- The events that drive the generator. -/
inductive GenEvent where
  | timerFire
  | finishGenerate (outcome : CaptureOutcome)
  | callQueueItem (index : Nat)
      (prim_path variant_set_name variant_value cache_key : String)
  | callProcessQueue
  | callCancelAll
deriving DecidableEq, Repr

/-- One machine step; `none` when the event is not enabled in the
given state.  `timerFire` requires the timer to be running (it is
single-shot, so firing consumes it) and performs the first half of
`_generate_next`: completion on an empty queue, otherwise
`_is_busy = True` and the pop of the queue head.  `finishGenerate`
performs the rest: the per-outcome signal and the `finally` block.
The three method calls require that no generation is in progress
(they run on the same Qt thread). -/
def stepGen (ms : MachineState) (e : GenEvent) :
    Option (MachineState × List GenSignal) :=
  match e with
  | GenEvent.timerFire =>
    if ms.generating.isSome then none
    else if ms.gen.timerActive = false then none
    else
      match ms.gen.queue with
      | [] => some (⟨{ ms.gen with timerActive := false, is_busy := false }, none⟩,
          [GenSignal.queueCompleted])
      | r :: rest =>
          let gen := { ms.gen with timerActive := false, is_busy := true, queue := rest }
          some (⟨gen, some r⟩, [])
  | GenEvent.finishGenerate outcome =>
    match ms.generating with
    | none => none
    | some r =>
      if ms.gen.queue ≠ [] then
        some (⟨{ ms.gen with is_busy := false, timerActive := true }, none⟩,
          finishSigs r outcome)
      else
        some (⟨{ ms.gen with is_busy := false }, none⟩,
          finishSigs r outcome ++ [GenSignal.queueCompleted])
  | GenEvent.callQueueItem index pp vsn vv key =>
    if ms.generating.isSome then none
    else some (⟨queueItem ms.gen index pp vsn vv key, none⟩, [])
  | GenEvent.callProcessQueue =>
    if ms.generating.isSome then none
    else some (⟨processQueue ms.gen, none⟩, [])
  | GenEvent.callCancelAll =>
    if ms.generating.isSome then none
    else some (⟨cancelAll ms.gen, none⟩, [])

/-- The machine after `queue_item` enqueued a single request and the
timer fired: the request is inside the capture section. -/
def demoBusyMachine : MachineState :=
  ⟨⟨[], true, false⟩, some ⟨0, "/a", "vs", "x", "k"⟩⟩

/-- The machine states reachable from a fresh generator. -/
inductive Reachable : MachineState → Prop where
  | init : Reachable initMachine
  | next {ms ms' : MachineState} {e : GenEvent} {sigs : List GenSignal} :
      Reachable ms → stepGen ms e = some (ms', sigs) → Reachable ms'

/-- The property that a generation can only be entered by the timer's
timeout: whenever a step leaves the machine in a generating state, the
event was `timerFire`. -/
def StartOnlyByTimer (ms : MachineState) (e : GenEvent) : Prop :=
  match stepGen ms e with
  | none => True
  | some (ms', _) => ms'.generating.isSome = true → e = GenEvent.timerFire

/-- The property that finishing a generation restarts the timer
exactly when the queue is non-empty, and emits `queue_completed`
exactly when it is empty. -/
def FinishBehavior (ms : MachineState) (outcome : CaptureOutcome) : Prop :=
  match stepGen ms (GenEvent.finishGenerate outcome) with
  | none => True
  | some (ms', sigs) =>
      (ms'.gen.timerActive = true ↔ ms.gen.queue ≠ []) ∧
      (GenSignal.queueCompleted ∈ sigs ↔ ms.gen.queue = [])

/-! ## Helper lemmas -/

theorem stateInit_initialized (s : StateObj) : (stateInit s).initialized = true := by
  unfold stateInit
  split
  · next h => exact h
  · rfl

theorem stateInit_idem (s : StateObj) : stateInit (stateInit s) = stateInit s := by
  have h := stateInit_initialized s
  unfold stateInit
  unfold stateInit at h
  split at h <;> simp_all

theorem processQueue_queue (s : GenState) : (processQueue s).queue = s.queue := by
  unfold processQueue
  split <;> rfl

theorem processQueue_is_busy (s : GenState) : (processQueue s).is_busy = s.is_busy := by
  unfold processQueue
  split <;> rfl

theorem queueItem_is_busy (s : GenState) (i : Nat) (pp vsn vv key : String) :
    (queueItem s i pp vsn vv key).is_busy = s.is_busy := by
  unfold queueItem
  split
  · rfl
  · dsimp only
    split
    · rw [processQueue_is_busy]
    · rfl

theorem step_preserves_inv (ms ms' : MachineState) (e : GenEvent)
    (sigs : List GenSignal)
    (hstep : stepGen ms e = some (ms', sigs))
    (hb : ms.gen.is_busy = ms.generating.isSome) :
    ms'.gen.is_busy = ms'.generating.isSome ∧
    (ms'.generating.isSome = true → ms'.gen.timerActive = false) := by
  cases e with
  | timerFire =>
    simp only [stepGen] at hstep
    split at hstep
    · simp at hstep
    · split at hstep
      · simp at hstep
      · split at hstep
        · simp only [Option.some.injEq, Prod.mk.injEq] at hstep
          obtain ⟨h1, h2⟩ := hstep
          subst h1
          simp
        · simp only [Option.some.injEq, Prod.mk.injEq] at hstep
          obtain ⟨h1, h2⟩ := hstep
          subst h1
          simp
  | finishGenerate outcome =>
    simp only [stepGen] at hstep
    split at hstep
    · simp at hstep
    · split at hstep
      · simp only [Option.some.injEq, Prod.mk.injEq] at hstep
        obtain ⟨h1, h2⟩ := hstep
        subst h1
        simp
      · simp only [Option.some.injEq, Prod.mk.injEq] at hstep
        obtain ⟨h1, h2⟩ := hstep
        subst h1
        simp
  | callQueueItem i pp vsn vv key =>
    simp only [stepGen] at hstep
    split at hstep
    · simp at hstep
    · next hg =>
      simp only [Option.some.injEq, Prod.mk.injEq] at hstep
      obtain ⟨h1, h2⟩ := hstep
      subst h1
      constructor
      · rw [queueItem_is_busy, hb]
        simp only [Bool.not_eq_true] at hg
        simp [hg]
      · simp
  | callProcessQueue =>
    simp only [stepGen] at hstep
    split at hstep
    · simp at hstep
    · next hg =>
      simp only [Option.some.injEq, Prod.mk.injEq] at hstep
      obtain ⟨h1, h2⟩ := hstep
      subst h1
      constructor
      · rw [processQueue_is_busy, hb]
        simp only [Bool.not_eq_true] at hg
        simp [hg]
      · simp
  | callCancelAll =>
    simp only [stepGen] at hstep
    split at hstep
    · simp at hstep
    · simp only [Option.some.injEq, Prod.mk.injEq] at hstep
      obtain ⟨h1, h2⟩ := hstep
      subst h1
      simp [cancelAll]

theorem reachable_inv (ms : MachineState) (h : Reachable ms) :
    ms.gen.is_busy = ms.generating.isSome ∧
    (ms.generating.isSome = true → ms.gen.timerActive = false) := by
  induction h with
  | init => simp [initMachine, initGenState]
  | next hr hstep ih =>
    exact step_preserves_inv _ _ _ _ hstep ih.1

/-- The queue of all cache keys currently queued. -/
def queueKeys (s : GenState) : List String :=
  s.queue.map (fun r => r.cache_key)

/-- The at-most-one-request-per-cache-key invariant. -/
def NoDupKeys (s : GenState) : Prop := (queueKeys s).Nodup

instance (s : GenState) : Decidable (NoDupKeys s) := by
  unfold NoDupKeys
  infer_instance

/-! ## Claims about `state.py` -/

/-- C4: `VariantManagerState` is a singleton: any call to
`VariantManagerState()` stores the returned object in the class-level
`_instance`, leaves it initialized, and a repeated construction (or a
`get_state()` call) returns the very same object with every stored
field (`lop_node`, `stage`, `prim_path`, `variant_set`) preserved,
without re-running initialization. -/
theorem state_singleton (iv : Option StateObj) :
    (stateConstruct iv).2 = some (stateConstruct iv).1 ∧
    (stateConstruct iv).1.initialized = true ∧
    stateConstruct (stateConstruct iv).2 = stateConstruct iv ∧
    get_state (stateConstruct iv).2 = stateConstruct iv := by
  cases iv <;>
    simp [stateConstruct, get_state, stateInit_initialized, stateInit_idem]

/-- C1 (failing evaluation): on the freshly constructed singleton, each
of the `stage`, `prim_path` and `variant_set` setters emits its changed
signal with the assigned value, yet the corresponding getter still
returns the default value, not the assigned one: the setters never
write the backing fields. -/
theorem state_setters_emit_but_do_not_store :
    (setPrimPath (stateConstruct none).1 "/Kitchen/Table").2
        = [StateSignal.primPathChanged "/Kitchen/Table"] ∧
    getPrimPath (setPrimPath (stateConstruct none).1 "/Kitchen/Table").1 = "" ∧
    (setStage (stateConstruct none).1 (some 7)).2
        = [StateSignal.stageChanged (some 7)] ∧
    getStage (setStage (stateConstruct none).1 (some 7)).1 = none ∧
    (setVariantSet (stateConstruct none).1 "modelVariant").2
        = [StateSignal.variantSetChanged "modelVariant"] ∧
    getVariantSet (setVariantSet (stateConstruct none).1 "modelVariant").1 = "" := by
  decide

/-! ## Claims about the thumbnail queue -/

/-- C2: the generation queue is FIFO: `queue_item` appends a request
with a fresh cache key at the tail, and `_generate_next` on a
non-empty queue removes the head — the earliest-enqueued request — and
processes exactly it (the emitted signal carries its index, and on a
successful capture its cache key and pixmap). -/
theorem queue_fifo (s : GenState) (index : Nat)
    (pp vsn vv key : String) (cap : Request → CaptureOutcome)
    (r : Request) (rest : List Request)
    (hfresh : ∀ q ∈ s.queue, q.cache_key ≠ key)
    (hq : s.queue = r :: rest) :
    (queueItem s index pp vsn vv key).queue
        = s.queue ++ [⟨index, pp, vsn, vv, key⟩] ∧
    (generateNext cap s).1.queue = rest ∧
    (∀ pm, cap r = CaptureOutcome.ok pm false →
      (generateNext cap s).2.head?
        = some (GenSignal.thumbnailGenerated r.index pm r.cache_key)) ∧
    (∀ msg, cap r = CaptureOutcome.captureError msg →
      (generateNext cap s).2.head?
        = some (GenSignal.generationError r.index msg)) := by
  refine ⟨?_, ?_, ?_, ?_⟩
  · have hany : s.queue.any (fun q => q.cache_key = key) = false := by
      simp only [List.any_eq_false, decide_eq_true_eq]
      exact hfresh
    unfold queueItem
    rw [hany]
    simp only [Bool.false_eq_true, if_false]
    split
    · exact processQueue_queue _
    · rfl
  · simp only [generateNext, hq]
    split <;> rfl
  · intro pm hcap
    simp only [generateNext, hq, hcap]
    split <;> rfl
  · intro msg hcap
    simp only [generateNext, hq, hcap]
    split <;> rfl

/-- C2 witness: a concrete two-element run. -/
theorem queue_fifo_witness :
    (queueItem ⟨[⟨0, "/K/Ball", "modelVariant", "red", "k0"⟩], false, false⟩
        1 "/K/Ball" "modelVariant" "blue" "k1").queue
      = [⟨0, "/K/Ball", "modelVariant", "red", "k0"⟩,
         ⟨1, "/K/Ball", "modelVariant", "blue", "k1"⟩] ∧
    (generateNext (fun _ => CaptureOutcome.ok 5 false)
        ⟨[⟨0, "/K/Ball", "modelVariant", "red", "k0"⟩], false, false⟩).1.queue = [] ∧
    (∀ pm, (fun _ => CaptureOutcome.ok 5 false)
        (⟨0, "/K/Ball", "modelVariant", "red", "k0"⟩ : Request)
          = CaptureOutcome.ok pm false →
      (generateNext (fun _ => CaptureOutcome.ok 5 false)
        ⟨[⟨0, "/K/Ball", "modelVariant", "red", "k0"⟩], false, false⟩).2.head?
        = some (GenSignal.thumbnailGenerated 0 pm "k0")) ∧
    (∀ msg, (fun _ => CaptureOutcome.ok 5 false)
        (⟨0, "/K/Ball", "modelVariant", "red", "k0"⟩ : Request)
          = CaptureOutcome.captureError msg →
      (generateNext (fun _ => CaptureOutcome.ok 5 false)
        ⟨[⟨0, "/K/Ball", "modelVariant", "red", "k0"⟩], false, false⟩).2.head?
        = some (GenSignal.generationError 0 msg)) :=
  queue_fifo ⟨[⟨0, "/K/Ball", "modelVariant", "red", "k0"⟩], false, false⟩
    1 "/K/Ball" "modelVariant" "blue" "k1" (fun _ => CaptureOutcome.ok 5 false)
    ⟨0, "/K/Ball", "modelVariant", "red", "k0"⟩ []
    (by decide) rfl

/-- C7: the queue never holds two requests with the same cache key:
enqueueing an already-present key returns the state unchanged, and the
no-duplicate invariant is preserved by `queue_item`, `_generate_next`
and `cancel_all`. -/
theorem queue_key_invariant (s : GenState) (index : Nat)
    (pp vsn vv key : String) (cap : Request → CaptureOutcome)
    (hnd : NoDupKeys s) :
    ((∃ q ∈ s.queue, q.cache_key = key) →
        queueItem s index pp vsn vv key = s) ∧
    NoDupKeys (queueItem s index pp vsn vv key) ∧
    NoDupKeys (generateNext cap s).1 ∧
    NoDupKeys (cancelAll s) := by
  refine ⟨?_, ?_, ?_, ?_⟩
  · intro hdup
    have hany : s.queue.any (fun q => q.cache_key = key) = true := by
      simp only [List.any_eq_true, decide_eq_true_eq]
      exact hdup
    unfold queueItem
    rw [hany]
    rfl
  · unfold queueItem
    cases hany : s.queue.any (fun q => q.cache_key = key) with
    | true => simpa using hnd
    | false =>
      have hfresh : ∀ q ∈ s.queue, ¬ q.cache_key = key := by
        simpa only [List.any_eq_false, decide_eq_true_eq] using hany
      simp only [Bool.false_eq_true, if_false]
      have hq : ∀ t : GenState, t.queue = s.queue ++ [⟨index, pp, vsn, vv, key⟩] →
          NoDupKeys t := by
        intro t ht
        unfold NoDupKeys queueKeys
        rw [ht]
        unfold NoDupKeys queueKeys at hnd
        simp only [List.map_append, List.map_cons, List.map_nil,
          List.nodup_append, List.nodup_cons, List.nodup_nil]
        refine ⟨hnd, by simp, ?_⟩
        intro a ha hb
        simp only [List.mem_singleton] at hb
        subst hb
        obtain ⟨q, hqmem, hqkey⟩ := List.mem_map.mp ha
        exact hfresh q hqmem hqkey
      split
      · exact hq _ (by rw [processQueue_queue])
      · exact hq _ rfl
  · unfold NoDupKeys queueKeys at hnd ⊢
    rcases hsq : s.queue with _ | ⟨r, rest⟩
    · simp only [generateNext, hsq]
      simp [hsq]
    · rw [hsq] at hnd
      simp only [List.map_cons, List.nodup_cons] at hnd
      simp only [generateNext, hsq]
      split <;> simpa using hnd.2
  · unfold NoDupKeys queueKeys cancelAll
    simp

/-- C7 witness: a concrete state with two distinct keys. -/
theorem queue_key_invariant_witness :
    ((∃ q ∈ (⟨[⟨0, "/a", "vs", "x", "k0"⟩, ⟨1, "/a", "vs", "y", "k1"⟩],
          true, true⟩ : GenState).queue, q.cache_key = "k0") →
        queueItem ⟨[⟨0, "/a", "vs", "x", "k0"⟩, ⟨1, "/a", "vs", "y", "k1"⟩],
            true, true⟩ 2 "/a" "vs" "z" "k0"
          = ⟨[⟨0, "/a", "vs", "x", "k0"⟩, ⟨1, "/a", "vs", "y", "k1"⟩], true, true⟩) ∧
    NoDupKeys (queueItem ⟨[⟨0, "/a", "vs", "x", "k0"⟩, ⟨1, "/a", "vs", "y", "k1"⟩],
        true, true⟩ 2 "/a" "vs" "z" "k0") ∧
    NoDupKeys (generateNext (fun _ => CaptureOutcome.ok 3 false)
        ⟨[⟨0, "/a", "vs", "x", "k0"⟩, ⟨1, "/a", "vs", "y", "k1"⟩], true, true⟩).1 ∧
    NoDupKeys (cancelAll
        ⟨[⟨0, "/a", "vs", "x", "k0"⟩, ⟨1, "/a", "vs", "y", "k1"⟩], true, true⟩) :=
  queue_key_invariant
    ⟨[⟨0, "/a", "vs", "x", "k0"⟩, ⟨1, "/a", "vs", "y", "k1"⟩], true, true⟩
    2 "/a" "vs" "z" "k0" (fun _ => CaptureOutcome.ok 3 false) (by decide)

/-- C8: after `cancel_all` (and hence after the manager's
`cancel_pending`, which just calls it), the queue is empty, the
generator is not busy, and the timer is stopped — whatever the prior
state was. -/
theorem cancel_all_resets (s : GenState) (m : MgrState) :
    queueLength (cancelAll s) = 0 ∧
    isBusy (cancelAll s) = false ∧
    (cancelAll s).timerActive = false ∧
    (cancelPending m).generator = cancelAll m.generator ∧
    queueLength (cancelPending m).generator = 0 ∧
    isBusy (cancelPending m).generator = false ∧
    (cancelPending m).generator.timerActive = false := by
  simp [cancelAll, cancelPending, queueLength, isBusy]

/-- C3: every call of `ThumbnailManager.request_thumbnail` raises
`TypeError` — it forwards the keyword argument `skip_duplicate_check`,
which `queue_item` does not accept — and therefore enqueues nothing
and leaves the queue and the thumbnail cache unchanged. -/
theorem request_thumbnail_always_type_error (m : MgrState) (index : Nat)
    (prim_path variant_set_name variant_value : String)
    (force_regenerate : Bool) :
    requestThumbnail m index prim_path variant_set_name variant_value
        force_regenerate
      = (m, some (PyError.typeError
          "queue_item() got an unexpected keyword argument skip_duplicate_check")) := by
  rfl

/-! ## Claims about `comparison_tab.py` -/

/-- C10: selecting a variant set on a valid prim rebuilds the panels:
exactly one panel per variant name of that set, in the order the stage
reports them, each in loading state, labelled with the variant name
and carrying the switch context (prim path, set name, choice). -/
theorem variant_set_selection_rebuilds_panels (s : CompState) (pr : UsdPrim)
    (name : String) (ns : List String)
    (hprim : s.current_prim = some pr) (hvalid : pr.valid = true)
    (hname : name ≠ "(No variant sets)")
    (hlookup : pr.variantSets.lookup name = some ns)
    (hpath : pr.path ≠ "") (hns : name ≠ "") :
    (onVariantSetChanged s name).panels
      = ns.map (fun v => ⟨v, true, some ⟨pr.path, name, v⟩⟩) ∧
    (onVariantSetChanged s name).current_variant_set = name := by
  unfold onVariantSetChanged
  have hcond : ¬ (name = "(No variant sets)" ∨ primTruthy s.current_prim = false) := by
    simp [hprim, primTruthy, hvalid, hname]
  rw [if_neg hcond]
  simp only [hprim, primGetVariantSet, hlookup]
  unfold rebuildPanels clearPanels
  simp only [hprim]
  constructor
  · apply List.map_congr_left
    intro v _
    unfold mkPanel
    rw [if_pos ⟨hpath, hns⟩]
  · trivial

/-- C10 witness: a concrete prim with a two-variant set. -/
theorem variant_set_selection_rebuilds_panels_witness :
    (onVariantSetChanged
        ⟨some ⟨true, "/Kitchen/Table", [("modelVariant", ["small", "large"])]⟩,
          "", [], false, true⟩ "modelVariant").panels
      = [⟨"small", true, some ⟨"/Kitchen/Table", "modelVariant", "small"⟩⟩,
         ⟨"large", true, some ⟨"/Kitchen/Table", "modelVariant", "large"⟩⟩] ∧
    (onVariantSetChanged
        ⟨some ⟨true, "/Kitchen/Table", [("modelVariant", ["small", "large"])]⟩,
          "", [], false, true⟩ "modelVariant").current_variant_set
      = "modelVariant" :=
  variant_set_selection_rebuilds_panels
    ⟨some ⟨true, "/Kitchen/Table", [("modelVariant", ["small", "large"])]⟩,
      "", [], false, true⟩
    ⟨true, "/Kitchen/Table", [("modelVariant", ["small", "large"])]⟩
    "modelVariant" ["small", "large"]
    rfl rfl (by decide) (by decide) (by decide) (by decide)

/-! ## Claims about the generator as an event machine -/

theorem queueCompleted_not_mem_finishSigs (r : Request) (o : CaptureOutcome) :
    GenSignal.queueCompleted ∉ finishSigs r o := by
  cases o with
  | ok pm isnull => cases isnull <;> simp [finishSigs]
  | captureError m => simp [finishSigs]
  | otherError m => simp [finishSigs]

/-- C9: thumbnails are generated one at a time on the timer: in every
reachable generator state, `_is_busy` holds exactly while an item is
inside the capture section of `_generate_next` (of which there is at
most one, by construction of `generating : Option Request`), a
generation can only be entered by the single-shot timer's timeout, and
finishing an item restarts the timer exactly when the queue is still
non-empty, emitting `queue_completed` exactly when it is empty. -/
theorem generation_one_at_a_time (ms : MachineState) (e : GenEvent)
    (outcome : CaptureOutcome) (h : Reachable ms) :
    ms.gen.is_busy = ms.generating.isSome ∧
    (ms.generating.isSome = true → ms.gen.timerActive = false) ∧
    StartOnlyByTimer ms e ∧
    FinishBehavior ms outcome := by
  obtain ⟨hb, ht⟩ := reachable_inv ms h
  refine ⟨hb, ht, ?_, ?_⟩
  · unfold StartOnlyByTimer
    cases hstep : stepGen ms e with
    | none => trivial
    | some out =>
      obtain ⟨ms', sigs⟩ := out
      intro hgen
      cases e with
      | timerFire => rfl
      | finishGenerate outcome2 =>
        simp only [stepGen] at hstep
        split at hstep
        · simp at hstep
        · split at hstep <;>
          · simp only [Option.some.injEq, Prod.mk.injEq] at hstep
            obtain ⟨h1, h2⟩ := hstep
            subst h1
            simp at hgen
      | callQueueItem i pp vsn vv key =>
        simp only [stepGen] at hstep
        split at hstep
        · simp at hstep
        · simp only [Option.some.injEq, Prod.mk.injEq] at hstep
          obtain ⟨h1, h2⟩ := hstep
          subst h1
          simp at hgen
      | callProcessQueue =>
        simp only [stepGen] at hstep
        split at hstep
        · simp at hstep
        · simp only [Option.some.injEq, Prod.mk.injEq] at hstep
          obtain ⟨h1, h2⟩ := hstep
          subst h1
          simp at hgen
      | callCancelAll =>
        simp only [stepGen] at hstep
        split at hstep
        · simp at hstep
        · simp only [Option.some.injEq, Prod.mk.injEq] at hstep
          obtain ⟨h1, h2⟩ := hstep
          subst h1
          simp at hgen
  · unfold FinishBehavior
    cases hstep : stepGen ms (GenEvent.finishGenerate outcome) with
    | none => trivial
    | some out =>
      obtain ⟨ms', sigs⟩ := out
      simp only [stepGen] at hstep
      split at hstep
      · simp at hstep
      · next r hr =>
        split at hstep
        · next hq =>
          simp only [Option.some.injEq, Prod.mk.injEq] at hstep
          obtain ⟨h1, h2⟩ := hstep
          subst h1
          subst h2
          refine ⟨by simp [hq], ?_⟩
          constructor
          · intro hmem
            exact absurd hmem (queueCompleted_not_mem_finishSigs r outcome)
          · intro hq2
            exact absurd hq2 hq
        · next hq =>
          simp only [Option.some.injEq, Prod.mk.injEq] at hstep
          obtain ⟨h1, h2⟩ := hstep
          subst h1
          subst h2
          have hq' : ms.gen.queue = [] := by simpa using hq
          have htmr : ms.gen.timerActive = false := ht (by simp [hr])
          refine ⟨by simp [htmr, hq'], by simp [hq']⟩

/-- C9 witness: the machine that enqueued one request and whose timer
then fired, entering the capture section. -/
theorem generation_one_at_a_time_witness :
    (demoBusyMachine.gen.is_busy = demoBusyMachine.generating.isSome) ∧
    (demoBusyMachine.generating.isSome = true →
        demoBusyMachine.gen.timerActive = false) ∧
    StartOnlyByTimer demoBusyMachine
      (GenEvent.finishGenerate (CaptureOutcome.ok 1 false)) ∧
    FinishBehavior demoBusyMachine (CaptureOutcome.ok 1 false) := by
  have h1 : Reachable (⟨⟨[⟨0, "/a", "vs", "x", "k"⟩], false, true⟩, none⟩ : MachineState) :=
    Reachable.next Reachable.init
      (show stepGen initMachine (GenEvent.callQueueItem 0 "/a" "vs" "x" "k")
          = some (⟨⟨[⟨0, "/a", "vs", "x", "k"⟩], false, true⟩, none⟩, []) from rfl)
  have h2 : Reachable demoBusyMachine :=
    Reachable.next h1
      (show stepGen (⟨⟨[⟨0, "/a", "vs", "x", "k"⟩], false, true⟩, none⟩ : MachineState)
          GenEvent.timerFire = some (demoBusyMachine, []) from rfl)
  exact generation_one_at_a_time demoBusyMachine
    (GenEvent.finishGenerate (CaptureOutcome.ok 1 false))
    (CaptureOutcome.ok 1 false) h2

/-! ## Claims about the tree filter -/

mutual

theorem filterItem_spec (text : List Char) (t : FTree) :
    (filterItem text t).2 = subtreeMatches text t ∧
    subtreeMatches text (filterItem text t).1 = subtreeMatches text t ∧
    VisOk text (filterItem text t).1 := by
  match t with
  | FTree.node data txt hid exp children =>
    obtain ⟨h1, h2, h3⟩ := filterChildren_spec text children
    simp only [filterItem, subtreeMatches, VisOk]
    refine ⟨by rw [h1], by rw [h2], ?_, h3⟩
    rw [h2, h1]
    exact Eq.to_iff (Bool.not_eq_false' _)

theorem filterChildren_spec (text : List Char) (l : List FTree) :
    (filterChildren text l).any Prod.snd = anySubtreeMatches text l ∧
    anySubtreeMatches text ((filterChildren text l).map Prod.fst)
      = anySubtreeMatches text l ∧
    VisOkList text ((filterChildren text l).map Prod.fst) := by
  match l with
  | [] => simp [filterChildren, anySubtreeMatches, VisOkList]
  | c :: cs =>
    obtain ⟨g1, g2, g3⟩ := filterItem_spec text c
    obtain ⟨h1, h2, h3⟩ := filterChildren_spec text cs
    simp only [filterChildren, anySubtreeMatches, VisOkList, List.any_cons,
      List.map_cons]
    exact ⟨by rw [g1, h1], by rw [g2, h2], g3, h3⟩

end

/-- C6: after `_apply_filter(text)` runs, every item of the resulting
tree is visible (not hidden) exactly when the filter text is empty, or
the item itself matches (prim path or variant set names for variant
items, displayed name for intermediate items, case-insensitively), or
some descendant matches; the emptiness test on the lowered text
coincides with the original text being empty. -/
theorem apply_filter_visibility (text : String) (roots : List FTree) :
    VisOkList (lowerStr text) (applyFilter text roots) ∧
    ((lowerStr text).isEmpty = true ↔ text = "") := by
  constructor
  · exact (filterChildren_spec (lowerStr text) roots).2.2
  · constructor
    · intro h
      apply String.ext
      simpa [lowerStr] using h
    · intro h
      subst h
      rfl

/-! ## Lemmas about the path-splitting tree builder -/

theorem findItem_append (m1 m2 : List (String × TreeItem)) (c : String) :
    findItem (m1 ++ m2) c = ((findItem m1 c).elim (findItem m2 c) some) := by
  induction m1 with
  | nil => rfl
  | cons kv m1 ih =>
    obtain ⟨k, it⟩ := kv
    simp only [List.cons_append, findItem]
    split <;> simp [ih]

theorem findItem_eq_none_iff (m : List (String × TreeItem)) (c : String) :
    findItem m c = none ↔ c ∉ itemKeys m := by
  induction m with
  | nil => simp [findItem, itemKeys]
  | cons kv m ih =>
    obtain ⟨k, it⟩ := kv
    simp only [findItem, itemKeys, List.map_cons, List.mem_cons]
    split
    · next h => simp [h]
    · next h =>
      simp only [itemKeys] at ih
      rw [ih]
      constructor
      · intro hn
        intro hc
        rcases hc with hc | hc
        · exact h hc.symm
        · exact hn hc
      · intro hn
        intro hc
        exact hn (Or.inr hc)

theorem findItem_isSome_iff (m : List (String × TreeItem)) (c : String) :
    (findItem m c).isSome = true ↔ c ∈ itemKeys m := by
  rw [Option.isSome_iff_ne_none, ne_eq, findItem_eq_none_iff, not_not]

theorem itemKeys_append (m1 m2 : List (String × TreeItem)) :
    itemKeys (m1 ++ m2) = itemKeys m1 ++ itemKeys m2 :=
  List.map_append _ _ _

theorem accPath_append (acc : String) (l1 l2 : List String) :
    accPath acc (l1 ++ l2) = accPath (accPath acc l1) l2 :=
  List.foldl_append _ _ _ _

theorem accPath_data (l : List String) : ∀ acc : String,
    (accPath acc l).data = acc.data ++ tailJoin (l.map String.data) := by
  induction l with
  | nil => intro acc; simp [accPath, tailJoin]
  | cons p ps ih =>
    intro acc
    show (accPath (acc ++ "/" ++ p) ps).data = _
    rw [ih]
    simp [tailJoin]

theorem tailJoin_ne_nil (l : List (List Char)) (h : l ≠ []) : tailJoin l ≠ [] := by
  cases l with
  | nil => exact absurd rfl h
  | cons p r => simp [tailJoin]

theorem tailJoin_shape (l : List (List Char)) :
    tailJoin l = [] ∨ ∃ r, tailJoin l = '/' :: r := by
  cases l with
  | nil => exact Or.inl rfl
  | cons p r => exact Or.inr ⟨p ++ tailJoin r, rfl⟩

theorem noSep_append_inj : ∀ (p1 : List Char) (p2 t1 t2 : List Char),
    ('/' : Char) ∉ p1 → ('/' : Char) ∉ p2 →
    (t1 = [] ∨ ∃ r, t1 = '/' :: r) → (t2 = [] ∨ ∃ r, t2 = '/' :: r) →
    p1 ++ t1 = p2 ++ t2 → p1 = p2 ∧ t1 = t2 := by
  intro p1
  induction p1 with
  | nil =>
    intro p2 t1 t2 _ hp2 ht1 _ heq
    cases p2 with
    | nil => exact ⟨rfl, heq⟩
    | cons c p2 =>
      exfalso
      simp only [List.nil_append, List.cons_append] at heq
      rcases ht1 with h | ⟨r, h⟩
      · rw [h] at heq
        exact List.noConfusion heq
      · rw [h] at heq
        have : c = '/' := (List.cons.inj heq).1.symm
        exact hp2 (this ▸ List.mem_cons_self c p2)
  | cons c1 p1 ih =>
    intro p2 t1 t2 hp1 hp2 ht1 ht2 heq
    cases p2 with
    | nil =>
      exfalso
      simp only [List.cons_append, List.nil_append] at heq
      rcases ht2 with h | ⟨r, h⟩
      · rw [h] at heq
        exact List.noConfusion heq
      · rw [h] at heq
        have : c1 = '/' := (List.cons.inj heq).1
        exact hp1 (this ▸ List.mem_cons_self c1 p1)
    | cons c2 p2 =>
      simp only [List.cons_append] at heq
      obtain ⟨hc, hrest⟩ := List.cons.inj heq
      have h1 : ('/' : Char) ∉ p1 := fun h => hp1 (List.mem_cons_of_mem c1 h)
      have h2 : ('/' : Char) ∉ p2 := fun h => hp2 (List.mem_cons_of_mem c2 h)
      obtain ⟨hp, ht⟩ := ih p2 t1 t2 h1 h2 ht1 ht2 hrest
      exact ⟨by rw [hc, hp], ht⟩

theorem tailJoin_inj : ∀ (l1 l2 : List (List Char)),
    (∀ p ∈ l1, ('/' : Char) ∉ p) → (∀ p ∈ l2, ('/' : Char) ∉ p) →
    tailJoin l1 = tailJoin l2 → l1 = l2 := by
  intro l1
  induction l1 with
  | nil =>
    intro l2 _ _ heq
    cases l2 with
    | nil => rfl
    | cons p r => exact absurd heq.symm (by simp [tailJoin])
  | cons p1 r1 ih =>
    intro l2 h1 h2 heq
    cases l2 with
    | nil => exact absurd heq (by simp [tailJoin])
    | cons p2 r2 =>
      simp only [tailJoin] at heq
      have heq2 := (List.cons.inj heq).2
      obtain ⟨hp, ht⟩ := noSep_append_inj p1 p2 (tailJoin r1) (tailJoin r2)
        (h1 p1 (List.mem_cons_self p1 r1)) (h2 p2 (List.mem_cons_self p2 r2))
        (tailJoin_shape r1) (tailJoin_shape r2) heq2
      have hr : r1 = r2 :=
        ih r2 (fun p hp2 => h1 p (List.mem_cons_of_mem p1 hp2))
          (fun p hp2 => h2 p (List.mem_cons_of_mem p2 hp2)) ht
      rw [hp, hr]

theorem accPath_inj (l1 l2 : List String) (h1 : SlashFree l1) (h2 : SlashFree l2)
    (heq : accPath "" l1 = accPath "" l2) : l1 = l2 := by
  have hd : tailJoin (l1.map String.data) = tailJoin (l2.map String.data) := by
    have := congrArg String.data heq
    rw [accPath_data, accPath_data] at this
    simpa using this
  have hmaps : l1.map String.data = l2.map String.data := by
    apply tailJoin_inj _ _ ?_ ?_ hd
    · intro p hp
      obtain ⟨s, hs, rfl⟩ := List.mem_map.mp hp
      exact h1 s hs
    · intro p hp
      obtain ⟨s, hs, rfl⟩ := List.mem_map.mp hp
      exact h2 s hs
  exact List.map_injective_iff.mpr (fun a b h => String.ext h) hmaps

theorem lexLt_append : ∀ (l r : List Char), r ≠ [] → List.Lex (· < ·) l (l ++ r) := by
  intro l
  induction l with
  | nil =>
    intro r hr
    cases r with
    | nil => exact absurd rfl hr
    | cons c r2 => exact List.Lex.nil
  | cons a l2 ih =>
    intro r hr
    exact List.Lex.cons (ih r hr)

theorem strLt_ext (s t : String) (r : List Char) (hdata : t.data = s.data ++ r)
    (hr : r ≠ []) : s < t := by
  rw [String.lt_iff_toList_lt]
  show List.Lex (· < ·) s.data t.data
  rw [hdata]
  exact lexLt_append s.data r hr

theorem chainFrom_mem : ∀ (l : List String) (acc c : String),
    c ∈ chainFrom acc l →
    ∃ k, k < l.length ∧ c = accPath acc (l.take (k+1)) := by
  intro l
  induction l with
  | nil => intro acc c h; exact absurd h (by simp [chainFrom])
  | cons p ps ih =>
    intro acc c h
    simp only [chainFrom, List.mem_cons] at h
    rcases h with h | h
    · exact ⟨0, by simp, by simpa [accPath] using h⟩
    · obtain ⟨k, hk, hc⟩ := ih (acc ++ "/" ++ p) c h
      refine ⟨k + 1, by simpa using hk, ?_⟩
      rw [hc]
      rfl

theorem accPath_take_mem_chainFrom : ∀ (l : List String) (acc : String) (k : Nat),
    k < l.length → accPath acc (l.take (k+1)) ∈ chainFrom acc l := by
  intro l
  induction l with
  | nil => intro acc k h; simp at h
  | cons p ps ih =>
    intro acc k h
    cases k with
    | zero => simp [chainFrom, accPath]
    | succ k =>
      simp only [List.take_succ_cons, chainFrom]
      refine List.mem_cons_of_mem _ ?_
      have := ih (acc ++ "/" ++ p) k (by simpa using h)
      simpa [accPath] using this

theorem dropLast_take (l : List String) (k : Nat) (h : k < l.length) :
    (l.take (k+1)).dropLast = l.take k := by
  rw [List.dropLast_eq_take, List.take_take]
  congr 1
  simp
  omega

theorem slashFree_take (l : List String) (n : Nat) (h : SlashFree l) :
    SlashFree (l.take n) :=
  fun s hs => h s (List.take_subset n l hs)

theorem length_take_succ (l : List String) (k : Nat) (h : k < l.length) :
    (l.take (k+1)).length = k + 1 := by
  simp
  omega

theorem mkItem_parent (b : Bool) (pd : PrimData) (part cur : String)
    (parent : Option String) :
    (if b then mkVariantItem pd part parent
      else mkIntermediateItem part cur parent).parent = parent := by
  cases b <;> rfl

theorem findItem_snoc (m : List (String × TreeItem)) (cur : String)
    (item : TreeItem) (k : String) :
    findItem (m ++ [(cur, item)]) k
      = (findItem m k).elim (if cur = k then some item else none) some := by
  rw [findItem_append]
  rfl

theorem findItem_snoc_isSome (m : List (String × TreeItem)) (cur : String)
    (item : TreeItem) (k : String) :
    (findItem (m ++ [(cur, item)]) k).isSome = true ↔
      ((findItem m k).isSome = true ∨ cur = k) := by
  rw [findItem_snoc]
  cases h : findItem m k with
  | some it => simp
  | none =>
    simp only [Option.elim, Option.isSome_none, Bool.false_eq_true, false_or]
    split
    · next heq => simp [heq]
    · next heq => simp [heq]

theorem slashFree_append (l1 l2 : List String) (h1 : SlashFree l1)
    (h2 : SlashFree l2) : SlashFree (l1 ++ l2) := by
  intro s hs
  rcases List.mem_append.mp hs with h | h
  · exact h1 s h
  · exact h2 s h

theorem slashFree_cons_head (part : String) (rest : List String)
    (h : SlashFree (part :: rest)) : SlashFree [part] := by
  intro s hs
  have : s = part := by simpa using hs
  exact this ▸ h part (List.mem_cons_self part rest)

theorem slashFree_cons_tail (part : String) (rest : List String)
    (h : SlashFree (part :: rest)) : SlashFree rest :=
  fun s hs => h s (List.mem_cons_of_mem part hs)

theorem accPath_concat (acc : String) (l : List String) (p : String) :
    accPath "" (l ++ [p]) = accPath "" l ++ "/" ++ p := by
  rw [accPath_append]
  rfl

theorem addPrimGo_spec (pd : PrimData) :
    ∀ (parts l0 : List String) (m : List (String × TreeItem)) (acc : String)
      (parent : Option String),
    SlashFree l0 → SlashFree parts → (itemKeys m).Nodup → KeyShape m →
    acc = accPath "" l0 →
    parent = (if l0.length = 0 then none else some acc) →
    pd.path = accPath "" (l0 ++ parts) →
    (parts ≠ [] → findItem m pd.path = none) →
    (∀ k it, findItem m k = some it →
        findItem (addPrimGo pd m parent acc parts) k = some it) ∧
    (itemKeys (addPrimGo pd m parent acc parts)).Nodup ∧
    KeyShape (addPrimGo pd m parent acc parts) ∧
    (∀ k, (findItem (addPrimGo pd m parent acc parts) k).isSome = true ↔
        ((findItem m k).isSome = true ∨ k ∈ chainFrom acc parts)) ∧
    (parts ≠ [] →
        ∃ it, findItem (addPrimGo pd m parent acc parts) pd.path = some it ∧
          it.userData = some pd ∧ it.isVariantPrim = true) ∧
    (∀ k it, findItem (addPrimGo pd m parent acc parts) k = some it →
        findItem m k = some it ∨
        (k = pd.path ∧ it.userData = some pd ∧ it.isVariantPrim = true) ∨
        it.userData = none) := by
  intro parts
  induction parts with
  | nil =>
    intro l0 m acc parent _ _ h3 h4 _ _ _ _
    simp only [addPrimGo, chainFrom]
    exact ⟨fun k it h => h, h3, h4, fun k => by simp,
      fun h => absurd rfl h, fun k it h => Or.inl h⟩
  | cons part rest ih =>
    intro l0 m acc parent hsf0 hsfp h3 h4 hacc hpar hfull habs
    have hsf0' : SlashFree (l0 ++ [part]) :=
      slashFree_append l0 [part] hsf0 (slashFree_cons_head part rest hsfp)
    have hsfrest : SlashFree rest := slashFree_cons_tail part rest hsfp
    have hsfall : SlashFree (l0 ++ part :: rest) :=
      slashFree_append _ _ hsf0 hsfp
    have hcur : acc ++ "/" ++ part = accPath "" (l0 ++ [part]) := by
      rw [accPath_concat "" l0 part, hacc]
    have hfull' : pd.path = accPath "" ((l0 ++ [part]) ++ rest) := by
      rw [hfull]
      congr 1
      simp
    have habs0 : findItem m pd.path = none := habs (by simp)
    have hcurne : rest ≠ [] → acc ++ "/" ++ part ≠ pd.path := by
      intro hr heq
      rw [hcur, hfull] at heq
      have := accPath_inj (l0 ++ [part]) (l0 ++ part :: rest) hsf0' hsfall heq
      have := List.append_cancel_left this
      simp at this
      exact hr this
    have hcureq : rest = [] → acc ++ "/" ++ part = pd.path := by
      intro hr
      subst hr
      rw [hcur, hfull]
    simp only [addPrimGo]
    cases hfind : findItem m (acc ++ "/" ++ part) with
    | some it0 =>
      rcases List.eq_nil_or_concat rest with hrest | _
      case inl =>
        subst hrest
        rw [hcureq rfl] at hfind
        rw [habs0] at hfind
        exact Option.noConfusion hfind
      case inr =>
        have hrest : rest ≠ [] := by
          rename_i hex
          obtain ⟨a, b, hab⟩ := hex
          simp [hab]
        obtain ⟨Q1, Q2, Q3, Q4, Q5, Q6⟩ :=
          ih (l0 ++ [part]) m (acc ++ "/" ++ part) (some (acc ++ "/" ++ part))
            hsf0' hsfrest h3 h4 hcur (by simp) hfull' (fun _ => habs0)
        refine ⟨Q1, Q2, Q3, ?_, fun _ => Q5 hrest, Q6⟩
        intro k
        rw [Q4 k]
        simp only [chainFrom, List.mem_cons]
        constructor
        · rintro (h | h)
          · exact Or.inl h
          · exact Or.inr (Or.inr h)
        · rintro (h | h | h)
          · exact Or.inl h
          · subst h
            exact Or.inl (by rw [hfind]; rfl)
          · exact Or.inr h
    | none =>
      have hcurnot : acc ++ "/" ++ part ∉ itemKeys m :=
        (findItem_eq_none_iff m _).mp hfind
      have hnodup2 :
          (itemKeys (m ++ [(acc ++ "/" ++ part,
            if rest.isEmpty then mkVariantItem pd part parent
            else mkIntermediateItem part (acc ++ "/" ++ part) parent)])).Nodup := by
        rw [itemKeys_append]
        simp only [itemKeys, List.map_cons, List.map_nil]
        rw [List.nodup_append]
        exact ⟨h3, List.nodup_singleton _, by
          intro a ha hb
          simp only [List.mem_singleton] at hb
          subst hb
          exact hcurnot ha⟩
      have hks2 : KeyShape (m ++ [(acc ++ "/" ++ part,
          if rest.isEmpty then mkVariantItem pd part parent
          else mkIntermediateItem part (acc ++ "/" ++ part) parent)]) := by
        intro k it h
        rw [findItem_snoc] at h
        cases hm : findItem m k with
        | some it2 =>
          rw [hm] at h
          simp only [Option.elim, Option.some.injEq] at h
          subst h
          exact h4 k it2 hm
        | none =>
          rw [hm] at h
          simp only [Option.elim] at h
          split at h
          · next heq =>
            simp only [Option.some.injEq] at h
            refine ⟨l0 ++ [part], by simp, hsf0', by rw [← heq, hcur], ?_⟩
            rw [← h, mkItem_parent, hpar]
            rw [List.dropLast_concat]
            simp only [List.length_append, List.length_singleton]
            rw [← hacc]
            by_cases h0 : l0.length = 0
            · simp [h0]
            · rw [if_neg h0, if_neg (by omega)]
          · exact Option.noConfusion h
      have habs2 : rest ≠ [] →
          findItem (m ++ [(acc ++ "/" ++ part,
            if rest.isEmpty then mkVariantItem pd part parent
            else mkIntermediateItem part (acc ++ "/" ++ part) parent)])
            pd.path = none := by
        intro hr
        rw [findItem_snoc, habs0]
        simp only [Option.elim]
        rw [if_neg (hcurne hr)]
      obtain ⟨Q1, Q2, Q3, Q4, Q5, Q6⟩ :=
        ih (l0 ++ [part])
          (m ++ [(acc ++ "/" ++ part,
            if rest.isEmpty then mkVariantItem pd part parent
            else mkIntermediateItem part (acc ++ "/" ++ part) parent)])
          (acc ++ "/" ++ part) (some (acc ++ "/" ++ part))
          hsf0' hsfrest hnodup2 hks2 hcur (by simp) hfull' habs2
      have hpres : ∀ k it, findItem m k = some it →
          findItem (m ++ [(acc ++ "/" ++ part,
            if rest.isEmpty then mkVariantItem pd part parent
            else mkIntermediateItem part (acc ++ "/" ++ part) parent)])
            k = some it := by
        intro k it h
        rw [findItem_snoc, h]
        rfl
      refine ⟨fun k it h => Q1 k it (hpres k it h), Q2, Q3, ?_, ?_, ?_⟩
      · intro k
        rw [Q4 k, findItem_snoc_isSome]
        simp only [chainFrom, List.mem_cons]
        constructor
        · rintro ((h | h) | h)
          · exact Or.inl h
          · exact Or.inr (Or.inl h.symm)
          · exact Or.inr (Or.inr h)
        · rintro (h | h | h)
          · exact Or.inl (Or.inl h)
          · exact Or.inl (Or.inr h.symm)
          · exact Or.inr h
      · intro _
        rcases List.eq_nil_or_concat rest with hrest | hex
        · subst hrest
          simp only [addPrimGo, List.isEmpty_nil, if_true]
          refine ⟨mkVariantItem pd part parent, ?_, rfl, rfl⟩
          rw [findItem_snoc]
          rw [← hcureq rfl, hfind]
          simp only [Option.elim]
          simp
        · have hrest : rest ≠ [] := by
            obtain ⟨a, b, hab⟩ := hex
            simp [hab]
          exact Q5 hrest
      · intro k it h
        rcases Q6 k it h with hq | hq | hq
        · rw [findItem_snoc] at hq
          cases hm : findItem m k with
          | some it2 =>
            rw [hm] at hq
            simp only [Option.elim, Option.some.injEq] at hq
            exact Or.inl (by rw [hq])
          | none =>
            rw [hm] at hq
            simp only [Option.elim] at hq
            split at hq
            · next heq =>
              simp only [Option.some.injEq] at hq
              rcases List.eq_nil_or_concat rest with hrest | hex
              · subst hrest
                simp only [List.isEmpty_nil, if_true] at hq
                refine Or.inr (Or.inl ⟨?_, ?_, ?_⟩)
                · rw [← heq, hcureq rfl]
                · rw [← hq]; rfl
                · rw [← hq]; rfl
              · have hrest : rest ≠ [] := by
                  obtain ⟨a, b, hab⟩ := hex
                  simp [hab]
                rw [if_neg (by simpa using hrest)] at hq
                refine Or.inr (Or.inr ?_)
                rw [← hq]
                rfl
            · exact Option.noConfusion hq
        · exact Or.inr (Or.inl hq)
        · exact Or.inr (Or.inr hq)

theorem addPrim_inv (done : List PrimData) (m : List (String × TreeItem))
    (pd : PrimData) (hInv : Inv done m) (hgood : GoodPath pd.path)
    (hdgood : ∀ q ∈ done, GoodPath q.path)
    (hle : ∀ q ∈ done, q.path ≤ pd.path)
    (hne : ∀ q ∈ done, q.path ≠ pd.path) :
    Inv (done ++ [pd]) (addPrim m pd) := by
  obtain ⟨h1, h2, h3, h4, h5⟩ := hInv
  obtain ⟨hpe, hsf, hpacc⟩ := hgood
  have habs : findItem m pd.path = none := by
    cases hf : findItem m pd.path with
    | none => rfl
    | some it =>
      exfalso
      have hsome : (findItem m pd.path).isSome = true := by rw [hf]; rfl
      obtain ⟨q, hq, hmem⟩ := (h3 pd.path).mp hsome
      obtain ⟨k, hk, hceq⟩ := chainFrom_mem (pathParts q.path) "" pd.path hmem
      by_cases hkfull : k + 1 = (pathParts q.path).length
      · have heq : pd.path = q.path := by
          rw [hceq, hkfull, List.take_length]
          exact ((hdgood q hq).2.2).symm
        exact hne q hq heq.symm
      · have hlt : k + 1 < (pathParts q.path).length := by omega
        have hqacc := (hdgood q hq).2.2
        have hsplit : q.path = accPath pd.path ((pathParts q.path).drop (k+1)) := by
          rw [hceq, ← accPath_append, List.take_append_drop]
          exact hqacc
        have hdrop : (pathParts q.path).drop (k+1) ≠ [] := by
          intro hd
          have := congrArg List.length hd
          simp only [List.length_drop, List.length_nil] at this
          omega
        have hlt2 : pd.path < q.path := by
          apply strLt_ext pd.path q.path
            (tailJoin (((pathParts q.path).drop (k+1)).map String.data))
            ?_ (tailJoin_ne_nil _ (by simpa using hdrop))
          have hd2 := congrArg String.data hsplit
          rw [accPath_data] at hd2
          exact hd2
        exact absurd hlt2 (not_lt.mpr (hle q hq))
  unfold addPrim
  rw [if_neg (by simpa using hpe)]
  obtain ⟨P1, P2, P3, P4, P5, P6⟩ :=
    addPrimGo_spec pd (pathParts pd.path) [] m "" none
      (fun s hs => absurd hs (List.not_mem_nil s)) hsf h1 h2 rfl (by simp)
      (by simpa using hpacc) (fun _ => habs)
  refine ⟨P2, P3, ?_, ?_, ?_⟩
  · intro k
    rw [P4 k, h3 k]
    constructor
    · rintro (⟨q, hq, hmem⟩ | hmem)
      · exact ⟨q, List.mem_append.mpr (Or.inl hq), hmem⟩
      · exact ⟨pd, List.mem_append.mpr (Or.inr (by simp)), hmem⟩
    · rintro ⟨q, hq, hmem⟩
      rcases List.mem_append.mp hq with h | h
      · exact Or.inl ⟨q, h, hmem⟩
      · have : q = pd := by simpa using h
        subst this
        exact Or.inr hmem
  · intro p hp
    rcases List.mem_append.mp hp with h | h
    · obtain ⟨it, hit, hd, hv⟩ := h4 p h
      exact ⟨it, P1 p.path it hit, hd, hv⟩
    · have : p = pd := by simpa using h
      subst this
      exact P5 hpe
  · intro k it hit hdata
    rcases P6 k it hit with h | h | h
    · obtain ⟨p, hp, hpk, hd, hv⟩ := h5 k it h hdata
      exact ⟨p, List.mem_append.mpr (Or.inl hp), hpk, hd, hv⟩
    · exact ⟨pd, List.mem_append.mpr (Or.inr (by simp)), h.1.symm, h.2.1, h.2.2⟩
    · exact absurd h hdata

theorem foldl_addPrim_inv : ∀ (todo done : List PrimData)
    (m : List (String × TreeItem)),
    Inv done m →
    (∀ p ∈ done ++ todo, GoodPath p.path) →
    List.Pairwise (fun a b => a.path ≤ b.path) (done ++ todo) →
    ((done ++ todo).map (fun p => p.path)).Nodup →
    Inv (done ++ todo) (todo.foldl addPrim m) := by
  intro todo
  induction todo with
  | nil =>
    intro done m hInv _ _ _
    simpa using hInv
  | cons p rest ih =>
    intro done m hInv hgood hpair hnd
    have hdone_le : ∀ q ∈ done, q.path ≤ p.path := by
      rw [List.pairwise_append] at hpair
      intro q hq
      exact hpair.2.2 q hq p (List.mem_cons_self p rest)
    have hdone_ne : ∀ q ∈ done, q.path ≠ p.path := by
      intro q hq heq
      rw [List.map_append, List.nodup_append] at hnd
      exact hnd.2.2 (List.mem_map_of_mem (fun p => p.path) hq)
        (by simp [heq])
    have hstep := addPrim_inv done m p hInv (hgood p (by simp))
      (fun q hq => hgood q (List.mem_append_left _ hq)) hdone_le hdone_ne
    have hres := ih (done ++ [p]) (addPrim m p) hstep
      (by simpa using hgood) (by simpa using hpair) (by simpa using hnd)
    simpa using hres

/-- C5: `_rebuild_list` builds the tree by path splitting: given a
variant list of canonical, pairwise-distinct prim paths, the resulting
`_path_to_item` has pairwise-distinct keys which are exactly the path
prefixes of the listed prims; the item of each prefix is parented
under the item of the prefix one component shorter (top-level for the
first component); each prim's variant data sits on the item of its
full path, marked as a variant item; and no other item carries any
variant data. -/
theorem rebuild_list_spec (prims : List PrimData)
    (hgood : ∀ p ∈ prims, GoodPath p.path)
    (hnd : (prims.map (fun p => p.path)).Nodup) :
    (itemKeys (rebuildList prims)).Nodup ∧
    (∀ k, (findItem (rebuildList prims) k).isSome = true ↔
        ∃ p ∈ prims, k ∈ chain (pathParts p.path)) ∧
    (∀ p ∈ prims, ∀ i, i < (pathParts p.path).length →
        ∃ it, findItem (rebuildList prims)
            (accPath "" ((pathParts p.path).take (i+1))) = some it ∧
          it.parent = (if i = 0 then none
            else some (accPath "" ((pathParts p.path).take i)))) ∧
    (∀ p ∈ prims, ∃ it, findItem (rebuildList prims) p.path = some it ∧
        it.userData = some p ∧ it.isVariantPrim = true) ∧
    (∀ k it, findItem (rebuildList prims) k = some it → it.userData ≠ none →
        ∃ p ∈ prims, p.path = k ∧ it.userData = some p ∧
          it.isVariantPrim = true) := by
  have hperm : List.Perm (prims.mergeSort (fun a b => a.path ≤ b.path)) prims :=
    List.mergeSort_perm prims _
  have hgood2 : ∀ p ∈ prims.mergeSort (fun a b => a.path ≤ b.path),
      GoodPath p.path := fun p hp => hgood p (hperm.mem_iff.mp hp)
  have hnd2 : ((prims.mergeSort (fun a b => a.path ≤ b.path)).map
      (fun p => p.path)).Nodup :=
    ((hperm.map (fun p => p.path)).nodup_iff).mpr hnd
  have hsorted : List.Pairwise (fun a b => a.path ≤ b.path)
      (prims.mergeSort (fun a b => a.path ≤ b.path)) := by
    have hp : (prims.mergeSort (fun a b => a.path ≤ b.path)).Pairwise
        (fun a b => decide (a.path ≤ b.path) = true) :=
      @List.sorted_mergeSort PrimData (fun a b => decide (a.path ≤ b.path))
        (fun a b c hab hbc => decide_eq_true
          (le_trans (of_decide_eq_true hab) (of_decide_eq_true hbc)))
        (fun (a b : PrimData) => by
          rcases le_total a.path b.path with h | h <;> simp [h]) prims
    exact hp.imp (fun h => of_decide_eq_true h)
  have hInv0 : Inv [] [] := by
    refine ⟨by simp [itemKeys], ?_, ?_, ?_, ?_⟩
    · intro k it h
      exact Option.noConfusion h
    · intro k
      simp [findItem]
    · intro p hp
      exact absurd hp (List.not_mem_nil p)
    · intro k it h
      exact Option.noConfusion h
  have hres := foldl_addPrim_inv (prims.mergeSort (fun a b => a.path ≤ b.path))
    [] [] hInv0 (by simpa using hgood2) (by simpa using hsorted)
    (by simpa using hnd2)
  rw [List.nil_append] at hres
  obtain ⟨H1, H2, H3, H4, H5⟩ := hres
  have hmem_iff : ∀ (P : PrimData → Prop),
      (∃ p ∈ prims.mergeSort (fun a b => a.path ≤ b.path), P p) ↔
      (∃ p ∈ prims, P p) := by
    intro P
    constructor
    · rintro ⟨p, hp, h⟩
      exact ⟨p, hperm.mem_iff.mp hp, h⟩
    · rintro ⟨p, hp, h⟩
      exact ⟨p, hperm.mem_iff.mpr hp, h⟩
  refine ⟨H1, ?_, ?_, ?_, ?_⟩
  · intro k
    rw [show rebuildList prims =
      (prims.mergeSort (fun a b => a.path ≤ b.path)).foldl addPrim [] from rfl]
    rw [H3 k]
    exact hmem_iff _
  · intro p hp i hi
    have hpgood := hgood p hp
    have hc : accPath "" ((pathParts p.path).take (i+1))
        ∈ chainFrom "" (pathParts p.path) :=
      accPath_take_mem_chainFrom (pathParts p.path) "" i hi
    have hsome : (findItem ((prims.mergeSort (fun a b => a.path ≤ b.path)).foldl
        addPrim []) (accPath "" ((pathParts p.path).take (i+1)))).isSome = true := by
      rw [H3]
      exact ⟨p, hperm.mem_iff.mpr hp, hc⟩
    obtain ⟨it, hit⟩ := Option.isSome_iff_exists.mp hsome
    obtain ⟨l, hlne, hlsf, hlacc, hlpar⟩ := H2 _ it hit
    have hltake : l = (pathParts p.path).take (i+1) :=
      accPath_inj l ((pathParts p.path).take (i+1)) hlsf
        (slashFree_take _ _ hpgood.2.1) hlacc.symm
    refine ⟨it, hit, ?_⟩
    rw [hlpar, hltake, length_take_succ _ _ hi, dropLast_take _ _ hi]
    by_cases h0 : i = 0
    · subst h0
      simp
    · rw [if_neg (by omega), if_neg h0]
  · intro p hp
    obtain ⟨it, hit, hd, hv⟩ := H4 p (hperm.mem_iff.mpr hp)
    exact ⟨it, hit, hd, hv⟩
  · intro k it hit hdata
    obtain ⟨p, hp, hrest⟩ := H5 k it hit hdata
    exact ⟨p, hperm.mem_iff.mp hp, hrest⟩

/-- C5 witness: a concrete variant list with a nested prefix
(`/Kitchen` is itself a variant prim and an ancestor of
`/Kitchen/assets/Ball`). -/
theorem rebuild_list_spec_witness :
    (∀ p ∈ demoPrims, GoodPath p.path) ∧
    ((demoPrims.map (fun p => p.path)).Nodup) ∧
    ((itemKeys (rebuildList demoPrims)).Nodup ∧
     (∀ k, (findItem (rebuildList demoPrims) k).isSome = true ↔
         ∃ p ∈ demoPrims, k ∈ chain (pathParts p.path)) ∧
     (∀ p ∈ demoPrims, ∀ i, i < (pathParts p.path).length →
         ∃ it, findItem (rebuildList demoPrims)
             (accPath "" ((pathParts p.path).take (i+1))) = some it ∧
           it.parent = (if i = 0 then none
             else some (accPath "" ((pathParts p.path).take i)))) ∧
     (∀ p ∈ demoPrims, ∃ it, findItem (rebuildList demoPrims) p.path = some it ∧
         it.userData = some p ∧ it.isVariantPrim = true) ∧
     (∀ k it, findItem (rebuildList demoPrims) k = some it →
         it.userData ≠ none →
         ∃ p ∈ demoPrims, p.path = k ∧ it.userData = some p ∧
           it.isVariantPrim = true)) :=
  ⟨by decide, by decide, rebuild_list_spec demoPrims (by decide) (by decide)⟩

end VariantManager
